import Mathlib

/-!
Verification development for the bbl-to-bibtex converter
(src/bbl-to-bibtex-converter.py).

The program text is embedded shallowly over `List Char`.  Each regular
expression used by the source is translated into an explicit scanner that
reproduces Python `re.search` semantics (leftmost start position, greedy and
lazy backtracking resolved by hand for the concrete pattern).  Python string
operations (`strip`, `rstrip`, `split`, `join`, `re.sub`, `re.split`) are
translated into structurally recursive functions.

Source functions embedded:
  - `convert_bibitem_to_bibtex`  (lines 12-105)  -> `extractRecord`,
    `renderRecord`, `convert_bibitem_to_bibtex`
  - `process_all_bibitems`       (lines 108-131) -> `splitBbl`,
    `collectRecords`, `process_all_bibitems`
-/

/-- Python regex class `\s` (and the character set stripped by `str.strip()`),
restricted to the ASCII range used by the program's inputs. -/
def isSpaceC (c : Char) : Bool :=
  c = ' ' || c = '\t' || c = '\n' || c = '\r' || c = '\x0b' || c = '\x0c'

/-- Python regex class `\d` (ASCII). -/
def isDigitC (c : Char) : Bool := '0' ≤ c && c ≤ '9'

/-- Python regex class `\w` (ASCII): letters, digits, underscore. -/
def isWordC (c : Char) : Bool :=
  ('a' ≤ c && c ≤ 'z') || ('A' ≤ c && c ≤ 'Z') || isDigitC c || c = '_'

/-- Python `s.lstrip()` restricted to whitespace. -/
def lstripWs (l : List Char) : List Char := l.dropWhile isSpaceC

/-- Python `s.rstrip()` restricted to whitespace. -/
def rstripWs (l : List Char) : List Char :=
  (l.reverse.dropWhile isSpaceC).reverse

/-- Python `s.strip()`. -/
def strip (l : List Char) : List Char := rstripWs (lstripWs l)

/-- Python `s.rstrip('.')`: drops every trailing period. -/
def rstripDot (l : List Char) : List Char :=
  (l.reverse.dropWhile (fun c => c = '.')).reverse

/-- Python `re.sub(r'\s+', ' ', s)`: every maximal whitespace run becomes one
space (the space is emitted at the end of the run). -/
def collapseWs : List Char → List Char
  | [] => []
  | c :: rest =>
    if isSpaceC c then
      match rest with
      | r :: _ => if isSpaceC r then collapseWs rest else ' ' :: collapseWs rest
      | [] => [' ']
    else c :: collapseWs rest

/-- Python `s.split(',')`: split at every comma, keeping empty pieces. -/
def splitComma : List Char → List (List Char)
  | [] => [[]]
  | c :: rest =>
    if c = ',' then [] :: splitComma rest
    else
      match splitComma rest with
      | [] => [[c]]
      | h :: t => (c :: h) :: t

/-- Python `sep.join(list)`. -/
def joinSep (sep : List Char) : List (List Char) → List Char
  | [] => []
  | [x] => x
  | x :: y :: t => x ++ sep ++ joinSep sep (y :: t)

/-- Leftmost-match driver: Python `re.search` tries every start position of
the subject, in order (including the empty position at the end). -/
def searchO {α : Type} (f : List Char → Option α) : List Char → Option α
  | [] => f []
  | c :: rest =>
    match f (c :: rest) with
    | some y => some y
    | none => searchO f rest

/-- Boolean variant of `searchO`, for patterns used only as tests. -/
def anyPos (f : List Char → Bool) : List Char → Bool
  | [] => f []
  | c :: rest => f (c :: rest) || anyPos f rest

/-- First index `i` (if any) with `tok` a prefix of `l.drop i`. -/
def firstIdx (tok : List Char) : List Char → Option Nat
  | [] => if tok.isEmpty then some 0 else none
  | c :: rest =>
    if tok.isPrefixOf (c :: rest) then some 0
    else (firstIdx tok rest).map (fun n => n + 1)

/-- First index `i` with `p (l.drop i) = true`; returns `l.length` when only
the empty suffix satisfies `p` (used with predicates true on `[]`). -/
def firstTrue (p : List Char → Bool) : List Char → Nat
  | [] => 0
  | c :: rest => if p (c :: rest) then 0 else firstTrue p rest + 1

/- Literal tokens of the source's patterns. -/

def bibitemTok : List Char := "\\bibitem".toList

def nbTok : List Char := "\\newblock".toList

def emphTok : List Char := "\\emph".toList

def emphBraceTok : List Char := "\\emph\x7b".toList

def urlBraceTok : List Char := "\\url\x7b".toList

def articleTok : List Char := "article".toList

def inprocTok : List Char := "inproceedings".toList

def journalTok : List Char := "journal".toList

def booktitleTok : List Char := "booktitle".toList

def yearTok : List Char := "year".toList

def urlTok : List Char := "url".toList

def sepAnd : List Char := " and ".toList

def nlTok : List Char := "\n".toList

def blankSep : List Char := "\n\n".toList

/-- The braced-group tail `\{([^}]+)\}` of the key pattern: requires `{`, a
non-empty run of non-`}` characters (the capture), then `}`; returns the
capture and the text after the closing brace. -/
def braceKey (r : List Char) : Option (List Char × List Char) :=
  match r with
  | '\x7b' :: r1 =>
    let c := r1.takeWhile (fun x => x ≠ '\x7d')
    if c.isEmpty then none
    else
      match r1.drop c.length with
      | '\x7d' :: r2 => some (c, r2)
      | _ => none
  | _ => none

/-- The tail of `\\bibitem(?:\[[^\]]+\])?\{([^}]+)\}` after the literal
marker.  The greedy optional bracket group matches exactly when a `]` occurs
with at least one character after the `[`; if the bracket group matches but no
braced group follows, backtracking to the empty alternative fails on the `[`
character, so the whole position fails. -/
def keyTail (r : List Char) : Option (List Char × List Char) :=
  match r with
  | '[' :: r1 =>
    let c := r1.takeWhile (fun x => x ≠ ']')
    if c.isEmpty then none
    else
      match r1.drop c.length with
      | ']' :: r2 => braceKey r2
      | _ => none
  | _ => braceKey r

/-- Match of the key pattern at one start position: the capture (raw key) and
the text after the closing brace. -/
def keyAt (l : List Char) : Option (List Char × List Char) :=
  if bibitemTok.isPrefixOf l then keyTail (l.drop 8) else none

/-- `re.search(r'\\bibitem(?:\[[^\]]+\])?\{([^}]+)\}', bibitem)` (line 24),
returning the capture group. -/
def findKeyCap (e : List Char) : Option (List Char) :=
  searchO (fun l => (keyAt l).map (fun p => p.1)) e

/-- Author-part tail of `...\}\s*(.+?)(?=\\newblock)` (line 30, DOTALL),
given the text after the closing brace.  Backtracking resolves to: with the
maximal whitespace run `w`, the lazy capture is the shortest non-empty span
ending at an occurrence of `\newblock` strictly after the run; failing that,
if `\newblock` starts exactly at the end of the run and the run is non-empty,
`\s*` gives back one character and the capture is that single whitespace
character. -/
def authorTail (t : List Char) : Option (List Char) :=
  let w := (t.takeWhile isSpaceC).length
  let u := t.drop w
  match u with
  | [] => none
  | _ :: u1 =>
    match firstIdx nbTok u1 with
    | some m => some (u.take (m + 1))
    | none =>
      if nbTok.isPrefixOf u then
        ((t.take w).getLast?).map (fun c => [c])
      else none

/-- `re.search(r'\\bibitem(?:\[[^\]]+\])?\{[^}]+\}\s*(.+?)(?=\\newblock)',
bibitem, re.DOTALL)` (line 30), returning the capture group. -/
def findAuthorCap (e : List Char) : Option (List Char) :=
  searchO (fun l => (keyAt l).bind (fun p => authorTail p.2)) e

/-- Lookahead `(?=\\newblock|\\emph|$)` of the title pattern, applied to the
remaining suffix; `$` holds at the end of the subject and also just before a
final newline. -/
def lookTitle (u : List Char) : Bool :=
  nbTok.isPrefixOf u || emphTok.isPrefixOf u || u.isEmpty || u = ['\n']

/-- Title-part tail of `\\newblock\s+(.+?)(?=\\newblock|\\emph|$)` (line 48,
DOTALL), given the text after the literal `\newblock`.  `\s+` needs a
non-empty whitespace run; with the maximal run the lazy capture is the
shortest non-empty span ending at a lookahead position (always found, since
`$` holds at the end); if nothing follows the run, `\s+` gives back one
character (needs run length at least two) and the capture is that single
whitespace character. -/
def titleTail (t : List Char) : Option (List Char) :=
  let w := (t.takeWhile isSpaceC).length
  if w = 0 then none
  else
    let u := t.drop w
    match u with
    | [] =>
      if 2 ≤ w then ((t.take w).getLast?).map (fun c => [c]) else none
    | _ :: u1 => some (u.take (firstTrue lookTitle u1 + 1))

/-- Match of the title pattern at one start position. -/
def tryTitleAt (l : List Char) : Option (List Char) :=
  if nbTok.isPrefixOf l then titleTail (l.drop 9) else none

/-- `re.search(r'\\newblock\s+(.+?)(?=\\newblock|\\emph|$)', bibitem,
re.DOTALL)` (line 48), returning the capture group. -/
def findTitleCap (e : List Char) : Option (List Char) :=
  searchO tryTitleAt e

/-- Match of `In\s+\\emph\{` at one start position (line 59): literal `In`,
a non-empty whitespace run, then `\emph` and an opening brace. -/
def inEmphAtB (l : List Char) : Bool :=
  match l with
  | 'I' :: 'n' :: r =>
    let w := (r.takeWhile isSpaceC).length
    decide (1 ≤ w) && emphBraceTok.isPrefixOf (r.drop w)
  | _ => false

/-- Match of `\\emph\{([^}]+)\}` at one start position (line 62). -/
def tryEmphAt (l : List Char) : Option (List Char) :=
  if emphBraceTok.isPrefixOf l then
    let r1 := l.drop 6
    let c := r1.takeWhile (fun x => x ≠ '\x7d')
    if c.isEmpty then none
    else
      match r1.drop c.length with
      | '\x7d' :: _ => some c
      | _ => none
  else none

/-- `re.search(r'\\emph\{([^}]+)\}', bibitem, re.DOTALL)` (line 62). -/
def findEmphCap (e : List Char) : Option (List Char) :=
  searchO tryEmphAt e

/-- `(\d{4})\.`: exactly four digits followed by a period (a fifth digit in
place of the period makes the match fail, with no backtracking possible). -/
def digits4dot (v : List Char) : Option (List Char) :=
  match v with
  | a :: b :: c :: d :: '.' :: _ =>
    if isDigitC a && isDigitC b && isDigitC c && isDigitC d then
      some [a, b, c, d]
    else none
  | _ => none

/-- Match of `,\s*(\d{4})\.` at one start position (line 73): a comma, a
maximal (possibly empty) whitespace run, four digits, a period. -/
def tryCommaYearAt (l : List Char) : Option (List Char) :=
  match l with
  | ',' :: r =>
    let w := (r.takeWhile isSpaceC).length
    digits4dot (r.drop w)
  | _ => none

/-- Test used to phrase hypotheses about the comma year pattern. -/
def commaYearHitB (l : List Char) : Bool := (tryCommaYearAt l).isSome

/-- Word-boundary test for `\b` placed before a digit: the previous character
(if any) must not be a word character. -/
def bOk : Option Char → Bool
  | none => true
  | some c => !(isWordC c)

/-- Scan for `\b(\d{4})\.` (line 76), threading the previous character for
the word-boundary test. -/
def firstBareAux (p : Option Char) : List Char → Option (List Char)
  | [] => none
  | c :: rest =>
    match (if bOk p then digits4dot (c :: rest) else none) with
    | some y => some y
    | none => firstBareAux (some c) rest

/-- The character seen just before position `i` by a scan that started with
previous character `p` (used to state what `firstBareAux` computes). -/
def prevAtP (p : Option Char) (s : List Char) (i : Nat) : Option Char :=
  if i = 0 then p else s.get? (i - 1)

/-- Positional reading of the bare-year pattern `\b(\d{4})\.`: the match and
capture of the pattern at position `i` of `s`, with `p` the character
preceding the whole subject. -/
def capAtP (p : Option Char) (s : List Char) (i : Nat) : Option (List Char) :=
  if bOk (prevAtP p s i) then digits4dot (s.drop i) else none

/-- Year extraction (lines 72-78): the comma pattern first, then the bare
word-boundary pattern as fallback. -/
def yearOf (e : List Char) : Option (List Char) :=
  match searchO tryCommaYearAt e with
  | some y => some y
  | none => firstBareAux none e

/-- Match of `URL\s+\\url\{([^}]+)\}` at one start position (line 81). -/
def tryUrlAt (l : List Char) : Option (List Char) :=
  match l with
  | 'U' :: 'R' :: 'L' :: r =>
    let w := (r.takeWhile isSpaceC).length
    if w = 0 then none
    else
      let v := r.drop w
      if urlBraceTok.isPrefixOf v then
        let r1 := v.drop 5
        let c := r1.takeWhile (fun x => x ≠ '\x7d')
        if c.isEmpty then none
        else
          match r1.drop c.length with
          | '\x7d' :: _ => some c
          | _ => none
      else none
  | _ => none

/-- `re.search(r'URL\s+\\url\{([^}]+)\}', bibitem, re.DOTALL)` (line 81). -/
def findUrlCap (e : List Char) : Option (List Char) :=
  searchO tryUrlAt e

/-- `re.sub(r'^\s*and\s+', '', a, flags=re.IGNORECASE)` (line 43): at most
one anchored replacement; the pattern needs a (possibly empty) whitespace
run, a case-insensitive `and`, and a non-empty whitespace run, and the match
is removed. -/
def andPrefixDrop (l : List Char) : Option (List Char) :=
  match l.dropWhile isSpaceC with
  | a :: n :: d :: rest =>
    if (a = 'a' || a = 'A') && (n = 'n' || n = 'N') && (d = 'd' || d = 'D') then
      match rest with
      | c :: _ => if isSpaceC c then some (rest.dropWhile isSpaceC) else none
      | [] => none
    else none
  | _ => none

/-- The effect of line 43 on a candidate author name. -/
def stripLeadingAnd (l : List Char) : List Char :=
  match andPrefixDrop l with
  | some r => r
  | none => l

/-- One candidate's cleanup `a.strip().rstrip('.')` (line 40). -/
def clean1 (c : List Char) : List Char := rstripDot (strip c)

/-- The author-list loop (lines 38-44): clean each comma-separated candidate,
drop it when empty after trimming, otherwise strip a leading conjunction and
keep it. -/
def cleanList (pieces : List (List Char)) : List (List Char) :=
  pieces.filterMap (fun c =>
    let a := clean1 c
    if a.isEmpty then none else some (stripLeadingAnd a))

/-- Author normalization (lines 33-45): strip the raw span, collapse
whitespace, strip a trailing period run, split on commas, clean candidates,
rejoin with the literal separator. -/
def normalizeAuthors (raw : List Char) : List Char :=
  joinSep sepAnd (cleanList (splitComma (rstripDot (collapseWs (strip raw)))))

/-- The structured content of one converted entry, as computed by
`convert_bibitem_to_bibtex` before rendering: entry-type tag, key, author
string, title string, and the optional fields in insertion order
(venue, then year, then url). -/
structure BibEntry where
  entryType : List Char
  key : List Char
  authors : List Char
  title : List Char
  fields : List (List Char × List Char)
deriving DecidableEq, Repr

/-- Field extraction of `convert_bibitem_to_bibtex` (lines 22-91).  The
source's entry-type selection (lines 86-91) yields `inproceedings` exactly
when the conference test holds; both remaining source branches yield
`article`. -/
def extractRecord (e : List Char) : Option BibEntry :=
  match findKeyCap e with
  | none => none
  | some kc =>
    match findAuthorCap e with
    | none => none
    | some ac =>
      match findTitleCap e with
      | none => none
      | some tc =>
        let isConf := anyPos inEmphAtB e
        let venueFields : List (List Char × List Char) :=
          match findEmphCap e with
          | some v =>
            [((if isConf then booktitleTok else journalTok),
              collapseWs (strip v))]
          | none => []
        let yearFields : List (List Char × List Char) :=
          match yearOf e with
          | some y => [(yearTok, strip y)]
          | none => []
        let urlFields : List (List Char × List Char) :=
          match findUrlCap e with
          | some u => [(urlTok, strip u)]
          | none => []
        some
          { entryType := if isConf then inprocTok else articleTok
            key := strip kc
            authors := normalizeAuthors ac
            title := collapseWs (strip tc)
            fields := venueFields ++ yearFields ++ urlFields }

/-- Python `s.rstrip(',\n')`. -/
def rstripCommaNl (l : List Char) : List Char :=
  (l.reverse.dropWhile (fun c => c = ',' || c = '\n')).reverse

/-- Render fragment: comma and newline after the key. -/
def rCommaNl : List Char := ",\n".toList

/-- Render fragment: start of the author line. -/
def rAuthorOpen : List Char := "  author = \x7b".toList

/-- Render fragment: end of a field line. -/
def rLineClose : List Char := "\x7d,\n".toList

/-- Render fragment: start of the title line. -/
def rTitleOpen : List Char := "  title = \x7b".toList

/-- Render fragment: indentation of a field line. -/
def rIndent : List Char := "  ".toList

/-- Render fragment: between a field name and its braced value. -/
def rEq : List Char := " = \x7b".toList

/-- Render fragment: final newline, closing brace, newline. -/
def rClose : List Char := "\n\x7d\n".toList

/-- Rendering of the record (lines 94-100). -/
def renderRecord (r : BibEntry) : List Char :=
  let body :=
    ('@' :: r.entryType) ++ ('\x7b' :: r.key) ++ rCommaNl ++
    rAuthorOpen ++ r.authors ++ rLineClose ++
    rTitleOpen ++ r.title ++ rLineClose ++
    (r.fields.foldl
      (fun acc f => acc ++ rIndent ++ f.1 ++ rEq ++ f.2 ++ rLineClose)
      [])
  rstripCommaNl body ++ rClose

/-- `convert_bibitem_to_bibtex` (lines 12-105): the rendered entry, or `none`
when a mandatory field is missing. -/
def convert_bibitem_to_bibtex (e : List Char) : Option (List Char) :=
  (extractRecord e).map renderRecord

/-- `re.split(r'\n(?=\\bibitem)', bbl_content)` (line 121): split at every
newline immediately followed by the marker; the newline is consumed. -/
def splitBbl : List Char → List (List Char)
  | [] => [[]]
  | c :: rest =>
    if c = '\n' && bibitemTok.isPrefixOf rest then
      [] :: splitBbl rest
    else
      match splitBbl rest with
      | [] => [[c]]
      | h :: t => (c :: h) :: t

/-- The accumulation loop of `process_all_bibitems` (lines 118-126). -/
def collectRecords (items : List (List Char)) : List (List Char) :=
  items.foldl
    (fun acc it =>
      match convert_bibitem_to_bibtex it with
      | some b => acc ++ [b]
      | none => acc)
    []

/-- `process_all_bibitems` (lines 108-131). -/
def process_all_bibitems (cs : List Char) : List Char :=
  joinSep blankSep (collectRecords (splitBbl cs))

/-- Match of the split pattern `\n(?=\\bibitem)` at one position. -/
def trigAtB (l : List Char) : Bool :=
  match l with
  | '\n' :: r => bibitemTok.isPrefixOf r
  | _ => false

/-- Occurrence of the literal marker at one position. -/
def bibitemHitB (l : List Char) : Bool := bibitemTok.isPrefixOf l

/-- Modelled from the spec's words for the year rule of claim C4: a 4-digit
run preceded by a comma-space (a comma followed by exactly one space) and
followed by a period.  This is the spec-side definition compared against the
source's `tryCommaYearAt` (which allows any, possibly empty, whitespace run
after the comma). -/
def trySpecCommaYearAt (l : List Char) : Option (List Char) :=
  match l with
  | ',' :: ' ' :: r => digits4dot r
  | _ => none

/-- Year extraction as the spec of claim C4 words it: first the comma-space
pattern, then the same bare fallback as the source. -/
def specYearOf (e : List Char) : Option (List Char) :=
  match searchO trySpecCommaYearAt e with
  | some y => some y
  | none => firstBareAux none e

/- Concrete inputs and expected values used by the claim theorems. -/

/-- The example entry of claim C2. -/
def eC2 : List Char :=
  "\\bibitem[Doe, 2020]\x7bdoe2020\x7d\nJ. Doe, A. Smith.\n\\newblock A Study of Things.\n\\emph\x7bJournal of Examples\x7d, 2020.".toList

def keyC2 : List Char := "doe2020".toList

def authorsC2 : List Char := "J. Doe and A. Smith".toList

def titleC2 : List Char := "A Study of Things.".toList

def journalC2 : List Char := "Journal of Examples".toList

def yearC2 : List Char := "2020".toList

/-- The record claim C2 prescribes for `eC2`. -/
def recC2 : BibEntry :=
  { entryType := articleTok
    key := keyC2
    authors := authorsC2
    title := titleC2
    fields := [(journalTok, journalC2), (yearTok, yearC2)] }

/-- Counterexample document for claim C1: an entry whose braced key is a
single space (trimmed to the empty key), followed by two identical entries
whose author span is one space before `\newblock` (normalized to the empty
author string) and whose keys collide. -/
def dC1 : List Char :=
  "\\bibitem\x7b \x7d A.\n\\newblock T.\n\\bibitem\x7bk\x7d \\newblock T.\n\\bibitem\x7bk\x7d \\newblock T.".toList

def chA : List Char := "A".toList

def chK : List Char := "k".toList

/-- Counterexample entry for claim C3: neither of its two emphasis groups is
immediately preceded by the word `In ` with a trailing space (the first group
follows a title, the second follows `In` and a newline), yet the conference
test `In\s+\\emph\{` fires and the first group's content lands under
`booktitle`. -/
def eC3 : List Char :=
  "\\bibitem\x7bk\x7d\nA.\n\\newblock T.\n\\emph\x7bJ\x7d. In\n\\emph\x7bP\x7d.".toList

/-- Occurrence of `In ` (with a literal single space) directly before an
emphasis group, the reading claim C3 gives. -/
def inSpaceEmphTok : List Char := "In \\emph\x7b".toList

def chJ : List Char := "J".toList

def titleT : List Char := "T.".toList

/-- The record the source computes for `eC3`. -/
def recC3 : BibEntry :=
  { entryType := inprocTok
    key := chK
    authors := chA
    title := titleT
    fields := [(booktitleTok, chJ)] }

/-- Counterexample entry for claim C4: the source's comma pattern `,\s*`
matches `,2011.` (no space after the comma) before the spec's comma-space
pattern would match `, 2022.`. -/
def eC4 : List Char :=
  "\\bibitem\x7bk\x7d\nA.\n\\newblock T,2011. , 2022.".toList

def year2011 : List Char := "2011".toList

def year2022 : List Char := "2022".toList

/-- Counterexample input for claim C5: a doubled leading conjunction. -/
def sAndAndSmith : List Char := "and and Smith".toList

def sAndSmith : List Char := "and Smith".toList

def sSmith : List Char := "Smith".toList

/-- Witness input for claim C5. -/
def sW5 : List Char := "J. Doe, A. Smith".toList

/-- Counterexample document for claim C6: the document starts with a newline
followed by the marker, so the first chunk is empty. -/
def dC6 : List Char := "\n\\bibitem".toList

/-- Witness document for claim C6. -/
def dW6 : List Char := "pre\n\\bibitemx".toList

def chunkW6 : List Char := "\\bibitemx".toList

/-- Witness entries for claim C7. -/
def eW7a : List Char := "\\bibitem\x7ba\x7dx".toList

def eW7b : List Char := "\\bibitem\x7bb\x7dy".toList

/-- Witness preamble for claim C7: contains no marker. -/
def pW7 : List Char := "no marker here".toList

/-- Counterexample entry for claim C10: the candidate ` and .` trims to
`and ` (non-empty, so it is kept) and the leading-conjunction removal then
empties it, leaving an empty name between two separators. -/
def eC10 : List Char :=
  "\\bibitem\x7bk\x7d\nJ. Doe, and ., A.\n\\newblock T.".toList

def authorsC10 : List Char := "J. Doe and  and A".toList

def pieceDoe : List Char := "J. Doe".toList

def pieceAndDot : List Char := " and .".toList

def pieceA : List Char := " A".toList

/-- Witness entry for claim C1. -/
def eW1 : List Char := "\\bibitem\x7bw1\x7d\nW. Author.\n\\newblock T1.".toList

def keyW1 : List Char := "w1".toList

def authorsW1 : List Char := "W. Author".toList

def titleW1 : List Char := "T1.".toList

/-- The record the source computes for `eW1`. -/
def recW1 : BibEntry :=
  { entryType := articleTok
    key := keyW1
    authors := authorsW1
    title := titleW1
    fields := [] }

/-- Witness entry for claim C3 (conference case). -/
def eW3 : List Char :=
  "\\bibitem\x7bw3\x7d\nB. Person.\n\\newblock T3. In \\emph\x7bProc\x7d.".toList

def keyW3 : List Char := "w3".toList

def authorsW3 : List Char := "B. Person".toList

def titleW3 : List Char := "T3. In".toList

def venueW3 : List Char := "Proc".toList

/-- The record the source computes for `eW3`. -/
def recW3 : BibEntry :=
  { entryType := inprocTok
    key := keyW3
    authors := authorsW3
    title := titleW3
    fields := [(booktitleTok, venueW3)] }

/-- Witness subject for claim C4. -/
def sW4 : List Char := "a, 2020.".toList

def year2020 : List Char := "2020".toList

/-! ## Facts about the scan drivers -/

/-- A match at position `i` with no match at any earlier position is what the
leftmost-match driver returns. -/
theorem searchO_some_min {α : Type} (f : List Char → Option α) :
    ∀ (s : List Char) (i : Nat) (y : α), f (s.drop i) = some y →
      (∀ j, j < i → f (s.drop j) = none) → searchO f s = some y := by
  intro s
  induction s with
  | nil =>
    intro i y hy _
    simp only [List.drop_nil] at hy
    simpa [searchO] using hy
  | cons c cs ih =>
    intro i y hy hmin
    cases i with
    | zero =>
      simp only [List.drop_zero] at hy
      simp [searchO, hy]
    | succ i =>
      have h0 : f (c :: cs) = none := by simpa using hmin 0 (Nat.succ_pos i)
      have htail : searchO f cs = some y := by
        apply ih i
        · simpa using hy
        · intro j hj
          simpa using hmin (j + 1) (Nat.succ_lt_succ hj)
      simp [searchO, h0, htail]

/-- The driver returns `none` exactly when no position matches. -/
theorem searchO_none_iff {α : Type} (f : List Char → Option α) :
    ∀ s : List Char, searchO f s = none ↔ ∀ i, f (s.drop i) = none := by
  intro s
  induction s with
  | nil =>
    constructor
    · intro h i
      simpa [searchO] using h
    · intro h
      simpa [searchO] using h 0
  | cons c cs ih =>
    constructor
    · intro h i
      cases hf : f (c :: cs) with
      | some y => simp [searchO, hf] at h
      | none =>
        cases i with
        | zero => simpa using hf
        | succ i =>
          have h' : searchO f cs = none := by simpa [searchO, hf] using h
          simpa using (ih.mp h') i
    · intro h
      have h0 : f (c :: cs) = none := by simpa using h 0
      have ht : ∀ i, f (cs.drop i) = none := by
        intro i
        simpa using h (i + 1)
      simp [searchO, h0, ih.mpr ht]

/-- A successful search exhibits a matching position. -/
theorem searchO_some_exists {α : Type} (f : List Char → Option α) :
    ∀ (s : List Char) (y : α), searchO f s = some y →
      ∃ i, f (s.drop i) = some y := by
  intro s
  induction s with
  | nil =>
    intro y hy
    exact ⟨0, by simpa [searchO] using hy⟩
  | cons c cs ih =>
    intro y hy
    cases hf : f (c :: cs) with
    | some z =>
      refine ⟨0, ?_⟩
      simp only [searchO, hf] at hy
      simpa [hf] using hy
    | none =>
      have h' : searchO f cs = some y := by simpa [searchO, hf] using hy
      obtain ⟨i, hi⟩ := ih y h'
      exact ⟨i + 1, by simpa using hi⟩

/-- The boolean driver is false exactly when every position fails. -/
theorem anyPos_false_iff (f : List Char → Bool) :
    ∀ s : List Char, anyPos f s = false ↔ ∀ i, f (s.drop i) = false := by
  intro s
  induction s with
  | nil =>
    constructor
    · intro h i
      simpa [anyPos] using h
    · intro h
      simpa [anyPos] using h 0
  | cons c cs ih =>
    constructor
    · intro h i
      have h' := Bool.or_eq_false_iff.mp (by simpa [anyPos] using h)
      cases i with
      | zero => simpa using h'.1
      | succ i => simpa using (ih.mp h'.2) i
    · intro h
      have h0 : f (c :: cs) = false := by simpa using h 0
      have ht : ∀ i, f (cs.drop i) = false := by
        intro i
        simpa using h (i + 1)
      simp [anyPos, h0, ih.mpr ht]

/-- The boolean driver is true exactly when some position matches. -/
theorem anyPos_true_iff (f : List Char → Bool) :
    ∀ s : List Char, anyPos f s = true ↔ ∃ i, f (s.drop i) = true := by
  intro s
  induction s with
  | nil =>
    constructor
    · intro h
      exact ⟨0, by simpa [anyPos] using h⟩
    · rintro ⟨i, hi⟩
      simpa [anyPos] using hi
  | cons c cs ih =>
    constructor
    · intro h
      rcases Bool.or_eq_true_iff.mp (by simpa [anyPos] using h) with h0 | h1
      · exact ⟨0, by simpa using h0⟩
      · obtain ⟨i, hi⟩ := ih.mp h1
        exact ⟨i + 1, by simpa using hi⟩
    · rintro ⟨i, hi⟩
      cases i with
      | zero =>
        have : f (c :: cs) = true := by simpa using hi
        simp [anyPos, this]
      | succ i =>
        have : anyPos f cs = true := ih.mpr ⟨i, by simpa using hi⟩
        simp [anyPos, this]

/-- `digits4dot` fails on the empty suffix. -/
theorem digits4dot_nil : digits4dot [] = none := rfl

/-- Stepping the positional reading of the bare-year pattern. -/
theorem capAtP_succ (p : Option Char) (c : Char) (cs : List Char) (i : Nat) :
    capAtP p (c :: cs) (i + 1) = capAtP (some c) cs i := by
  cases i with
  | zero => simp [capAtP, prevAtP]
  | succ i => simp [capAtP, prevAtP]

/-- A bare-year match at position `i` with no earlier match is what the
threaded scan returns. -/
theorem firstBareAux_min :
    ∀ (s : List Char) (p : Option Char) (i : Nat) (y : List Char),
      capAtP p s i = some y → (∀ j, j < i → capAtP p s j = none) →
      firstBareAux p s = some y := by
  intro s
  induction s with
  | nil =>
    intro p i y hy _
    exfalso
    simp [capAtP, digits4dot_nil] at hy
  | cons c cs ih =>
    intro p i y hy hmin
    cases i with
    | zero =>
      have hy' : (if bOk p then digits4dot (c :: cs) else none) = some y := by
        simpa [capAtP, prevAtP] using hy
      cases hbp : bOk p with
      | false => rw [hbp] at hy'; simp at hy'
      | true =>
        rw [hbp] at hy'
        simp only [if_pos] at hy'
        simp [firstBareAux, hbp, hy']
    | succ i =>
      have h0 : (if bOk p then digits4dot (c :: cs) else none) = none := by
        simpa [capAtP, prevAtP] using hmin 0 (Nat.succ_pos i)
      have hrec : firstBareAux (some c) cs = some y := by
        apply ih (some c) i
        · rw [← capAtP_succ]; exact hy
        · intro j hj
          rw [← capAtP_succ]
          exact hmin (j + 1) (Nat.succ_lt_succ hj)
      simp [firstBareAux, h0, hrec]

/-- The threaded scan returns `none` exactly when no position matches. -/
theorem firstBareAux_none_iff :
    ∀ (s : List Char) (p : Option Char),
      firstBareAux p s = none ↔ ∀ i, capAtP p s i = none := by
  intro s
  induction s with
  | nil =>
    intro p
    constructor
    · intro _ i
      simp [capAtP, digits4dot_nil]
    · intro _
      rfl
  | cons c cs ih =>
    intro p
    constructor
    · intro h i
      cases hh : (if bOk p then digits4dot (c :: cs) else none) with
      | some y => simp [firstBareAux, hh] at h
      | none =>
        cases i with
        | zero => simpa [capAtP, prevAtP] using hh
        | succ i =>
          have h' : firstBareAux (some c) cs = none := by
            simpa [firstBareAux, hh] using h
          rw [capAtP_succ]
          exact ((ih (some c)).mp h') i
    · intro h
      have h0 : (if bOk p then digits4dot (c :: cs) else none) = none := by
        simpa [capAtP, prevAtP] using h 0
      have ht : ∀ i, capAtP (some c) cs i = none := by
        intro i
        rw [← capAtP_succ]
        exact h (i + 1)
      simp [firstBareAux, h0, (ih (some c)).mpr ht]

/-! ## The collection loop and the extractor's failure cases -/

/-- Unfolding of the accumulation loop into a filtered map. -/
theorem foldl_collect_eq (l : List (List Char)) :
    ∀ acc : List (List Char),
      l.foldl
        (fun acc it =>
          match convert_bibitem_to_bibtex it with
          | some b => acc ++ [b]
          | none => acc)
        acc = acc ++ l.filterMap convert_bibitem_to_bibtex := by
  induction l with
  | nil => intro acc; simp
  | cons x l ih =>
    intro acc
    cases hx : convert_bibitem_to_bibtex x with
    | some b => simp [List.foldl_cons, hx, ih, List.filterMap_cons]
    | none => simp [List.foldl_cons, hx, ih, List.filterMap_cons]

/-- The collection loop keeps exactly the successful conversions, in order. -/
theorem collectRecords_eq_filterMap (items : List (List Char)) :
    collectRecords items = items.filterMap convert_bibitem_to_bibtex := by
  simpa [collectRecords] using foldl_collect_eq items []

/-- Extraction fails exactly when one of the three mandatory patterns fails. -/
theorem extractRecord_none_iff (e : List Char) :
    extractRecord e = none ↔
      findKeyCap e = none ∨ findAuthorCap e = none ∨ findTitleCap e = none := by
  unfold extractRecord
  cases h1 : findKeyCap e <;> cases h2 : findAuthorCap e <;>
    cases h3 : findTitleCap e <;> simp

/-! ## Facts about the splitter -/

/-- The splitter never returns an empty list of chunks. -/
theorem splitBbl_ne_nil : ∀ l : List Char, splitBbl l ≠ [] := by
  intro l
  induction l with
  | nil => simp [splitBbl]
  | cons c rest ih =>
    by_cases hc : (decide (c = '\n') && bibitemTok.isPrefixOf rest) = true
    · simp [splitBbl, hc]
    · rw [Bool.not_eq_true] at hc
      cases hs : splitBbl rest with
      | nil => exact absurd hs ih
      | cons h t => simp [splitBbl, hc, hs]

/-- A token containing no occurrence of `c` that is a prefix of `xs ++ c :: ys`
is already a prefix of `xs`. -/
theorem prefix_no_spill :
    ∀ (tok xs : List Char) (c : Char) (ys : List Char), c ∉ tok →
      tok.isPrefixOf (xs ++ c :: ys) = true → tok.isPrefixOf xs = true := by
  intro tok
  induction tok with
  | nil =>
    intro xs c ys _ _
    exact List.isPrefixOf_iff_prefix.mpr List.nil_prefix
  | cons a tok ih =>
    intro xs c ys hc hp
    cases xs with
    | nil =>
      exfalso
      have hp' := List.isPrefixOf_iff_prefix.mp hp
      obtain ⟨t, ht⟩ := hp'
      simp only [List.nil_append, List.cons_append, List.cons.injEq] at ht
      exact hc (ht.1 ▸ List.mem_cons_self a tok)
    | cons x xs =>
      have hp' := List.isPrefixOf_iff_prefix.mp hp
      obtain ⟨t, ht⟩ := hp'
      simp only [List.cons_append, List.cons.injEq] at ht
      have htail : tok.isPrefixOf (xs ++ c :: ys) = true := by
        apply List.isPrefixOf_iff_prefix.mpr
        exact ⟨t, by simpa using ht.2⟩
      have := ih xs c ys (fun h => hc (List.mem_cons_of_mem a h)) htail
      apply List.isPrefixOf_iff_prefix.mpr
      obtain ⟨u, hu⟩ := List.isPrefixOf_iff_prefix.mp this
      exact ⟨u, by simp [ht.1, hu]⟩

/-- Prepending newline-free text merges into the first chunk. -/
theorem splitBbl_prepend :
    ∀ pre : List Char, (∀ c ∈ pre, c ≠ '\n') →
      ∀ (ys h : List Char) (t : List (List Char)), splitBbl ys = h :: t →
        splitBbl (pre ++ ys) = (pre ++ h) :: t := by
  intro pre
  induction pre with
  | nil =>
    intro _ ys h t hys
    simpa using hys
  | cons c pre ih =>
    intro hc ys h t hys
    have hcn : c ≠ '\n' := hc c (List.mem_cons_self c pre)
    have hrec := ih (fun x hx => hc x (List.mem_cons_of_mem c hx)) ys h t hys
    have hcond : (decide (c = '\n') && bibitemTok.isPrefixOf (pre ++ ys)) = false := by
      simp [hcn]
    simp [splitBbl, hcond, hrec]

/-- A subject with no occurrence of the split pattern is one chunk. -/
theorem splitBbl_no_trig :
    ∀ e : List Char, anyPos trigAtB e = false → splitBbl e = [e] := by
  intro e
  induction e with
  | nil => intro _; rfl
  | cons c rest ih =>
    intro h
    have h' := Bool.or_eq_false_iff.mp (by simpa [anyPos] using h)
    have hrec := ih h'.2
    have hcond : (decide (c = '\n') && bibitemTok.isPrefixOf rest) = false := by
      by_cases hcn : c = '\n'
      · subst hcn
        simpa [trigAtB] using h'.1
      · simp [hcn]
    simp [splitBbl, hcond, hrec]

/-- The splitter cuts exactly at a newline followed by the marker, when the
text before the newline contains no split point. -/
theorem splitBbl_chunk :
    ∀ e rest : List Char, anyPos trigAtB e = false →
      bibitemTok.isPrefixOf rest = true →
      splitBbl (e ++ '\n' :: rest) = e :: splitBbl rest := by
  intro e
  induction e with
  | nil =>
    intro rest _ hp
    simp [splitBbl, hp]
  | cons c e ih =>
    intro rest h hp
    have h' := Bool.or_eq_false_iff.mp (by simpa [anyPos] using h)
    have hrec := ih rest h'.2 hp
    have hcond :
        (decide (c = '\n') && bibitemTok.isPrefixOf (e ++ '\n' :: rest)) = false := by
      by_cases hcn : c = '\n'
      · subst hcn
        simp only [decide_True, Bool.true_and]
        rw [Bool.eq_false_iff]
        intro hb
        have hnl : '\n' ∉ bibitemTok := by decide
        have := prefix_no_spill bibitemTok e '\n' rest hnl hb
        have h1 : bibitemTok.isPrefixOf e = false := by simpa [trigAtB] using h'.1
        rw [this] at h1
        simp at h1
      · simp [hcn]
    simp [splitBbl, hcond, hrec]

/-- A prefix of `a` is a prefix of `a ++ z`. -/
theorem isPrefixOf_append_extend (tok a z : List Char)
    (h : tok.isPrefixOf a = true) : tok.isPrefixOf (a ++ z) = true := by
  apply List.isPrefixOf_iff_prefix.mpr
  exact (List.isPrefixOf_iff_prefix.mp h).trans (List.prefix_append a z)

/-- A subject starting with the marker yields a first chunk starting with the
marker (the marker contains no newline, so no split point lies inside it). -/
theorem splitBbl_head_tok :
    ∀ xs : List Char, bibitemTok.isPrefixOf xs = true →
      ∃ (h : List Char) (t : List (List Char)),
        splitBbl xs = h :: t ∧ bibitemTok.isPrefixOf h = true := by
  intro xs hp
  obtain ⟨ys, hys⟩ := List.isPrefixOf_iff_prefix.mp hp
  cases hs : splitBbl ys with
  | nil => exact absurd hs (splitBbl_ne_nil ys)
  | cons h t =>
    have hpre : ∀ c ∈ bibitemTok, c ≠ '\n' := by decide
    have := splitBbl_prepend bibitemTok hpre ys h t hs
    refine ⟨bibitemTok ++ h, t, ?_, ?_⟩
    · rw [← hys]; exact this
    · exact List.isPrefixOf_iff_prefix.mpr ⟨h, rfl⟩

/-- Every chunk after the first starts with the marker. -/
theorem splitBbl_tail_tok :
    ∀ (cs y : List Char), y ∈ (splitBbl cs).tail →
      bibitemTok.isPrefixOf y = true := by
  intro cs
  induction cs with
  | nil =>
    intro y hy
    simp [splitBbl] at hy
  | cons c rest ih =>
    intro y hy
    by_cases hcond : (decide (c = '\n') && bibitemTok.isPrefixOf rest) = true
    · have hp : bibitemTok.isPrefixOf rest = true :=
        ((Bool.and_eq_true _ _).mp hcond).2
      have hsplit : splitBbl (c :: rest) = [] :: splitBbl rest := by
        simp [splitBbl, hcond]
      rw [hsplit] at hy
      simp only [List.tail_cons] at hy
      obtain ⟨h, t, hht, hh⟩ := splitBbl_head_tok rest hp
      rw [hht] at hy
      rcases List.mem_cons.mp hy with rfl | hy'
      · exact hh
      · apply ih
        rw [hht]
        simpa using hy'
    · rw [Bool.not_eq_true] at hcond
      cases hs : splitBbl rest with
      | nil => exact absurd hs (splitBbl_ne_nil rest)
      | cons h t =>
        have hsplit : splitBbl (c :: rest) = (c :: h) :: t := by
          simp [splitBbl, hcond, hs]
        rw [hsplit] at hy
        simp only [List.tail_cons] at hy
        apply ih
        rw [hs]
        simpa using hy

/-- Joining marker-opened, split-point-free entries with single newlines and
splitting again recovers exactly the entries. -/
theorem splitBbl_joinSep :
    ∀ es : List (List Char), es ≠ [] →
      (∀ e ∈ es, bibitemTok.isPrefixOf e = true ∧ anyPos trigAtB e = false) →
      splitBbl (joinSep nlTok es) = es := by
  intro es
  induction es with
  | nil => intro h _; exact absurd rfl h
  | cons e es ih =>
    intro _ hall
    cases es with
    | nil =>
      have := (hall e (List.mem_cons_self e [])).2
      simpa [joinSep] using splitBbl_no_trig e this
    | cons e2 t =>
      have h1 := hall e (List.mem_cons_self e (e2 :: t))
      have hrec := ih (by simp) (fun x hx => hall x (List.mem_cons_of_mem e hx))
      have hpre : bibitemTok.isPrefixOf (joinSep nlTok (e2 :: t)) = true := by
        have h2 := (hall e2 (by simp)).1
        cases t with
        | nil => simpa [joinSep] using h2
        | cons y t' =>
          have : joinSep nlTok (e2 :: y :: t') = e2 ++ (nlTok ++ joinSep nlTok (y :: t')) := by
            simp [joinSep]
          rw [this]
          exact isPrefixOf_append_extend bibitemTok e2 _ h2
      have hnl : nlTok = ['\n'] := by decide
      have hjoin : joinSep nlTok (e :: e2 :: t) = e ++ '\n' :: joinSep nlTok (e2 :: t) := by
        rw [show joinSep nlTok (e :: e2 :: t) = e ++ nlTok ++ joinSep nlTok (e2 :: t) from rfl,
          hnl]
        simp
      rw [hjoin, splitBbl_chunk e (joinSep nlTok (e2 :: t)) h1.2 hpre, hrec]

/-! ## Toolkit: membership and fixedness of the cleanup functions -/

/-- Elements survive `dropWhile`. -/
theorem mem_of_mem_dropWhile {p : Char → Bool} {l : List Char} {x : Char}
    (h : x ∈ l.dropWhile p) : x ∈ l :=
  List.Sublist.mem h (List.dropWhile_sublist p)

/-- Elements survive `drop`. -/
theorem mem_of_mem_drop {n : Nat} {l : List Char} {x : Char}
    (h : x ∈ l.drop n) : x ∈ l :=
  List.Sublist.mem h (List.drop_sublist n l)

/-- Elements survive `strip`. -/
theorem mem_of_mem_strip (l : List Char) (x : Char) (h : x ∈ strip l) :
    x ∈ l := by
  unfold strip rstripWs lstripWs at h
  rw [List.mem_reverse] at h
  have h1 := mem_of_mem_dropWhile h
  rw [List.mem_reverse] at h1
  exact mem_of_mem_dropWhile h1

/-- Elements survive `rstripDot`. -/
theorem mem_of_mem_rstripDot (l : List Char) (x : Char) (h : x ∈ rstripDot l) :
    x ∈ l := by
  unfold rstripDot at h
  rw [List.mem_reverse] at h
  have h1 := mem_of_mem_dropWhile h
  rwa [List.mem_reverse] at h1

/-- Shape of a successful leading-conjunction removal. -/
theorem andPrefixDrop_shape (l r : List Char) (h : andPrefixDrop l = some r) :
    r = ((l.dropWhile isSpaceC).drop 3).dropWhile isSpaceC := by
  unfold andPrefixDrop at h
  cases hdw : l.dropWhile isSpaceC with
  | nil => rw [hdw] at h; simp at h
  | cons a t1 =>
    cases t1 with
    | nil => rw [hdw] at h; simp at h
    | cons n t2 =>
      cases t2 with
      | nil => rw [hdw] at h; simp at h
      | cons d rest =>
        rw [hdw] at h
        simp only at h
        by_cases hcnd :
            ((a = 'a' || a = 'A') && (n = 'n' || n = 'N') && (d = 'd' || d = 'D')) = true
        · rw [if_pos hcnd] at h
          cases rest with
          | nil => simp at h
          | cons c rest' =>
            by_cases hsp : isSpaceC c = true
            · simp [hsp] at h ⊢
              exact h.symm
            · rw [Bool.not_eq_true] at hsp
              simp [hsp] at h
        · rw [Bool.not_eq_true] at hcnd
          simp [hcnd] at h

/-- The leading-conjunction removal yields a suffix of its input. -/
theorem stripLeadingAnd_suffix (l : List Char) : (stripLeadingAnd l) <:+ l := by
  unfold stripLeadingAnd
  cases hd : andPrefixDrop l with
  | none => exact List.suffix_refl l
  | some r =>
    rw [andPrefixDrop_shape l r hd]
    exact ((List.dropWhile_suffix _).trans
      ((List.drop_suffix 3 _).trans (List.dropWhile_suffix _)))

/-- Elements survive the leading-conjunction removal. -/
theorem mem_of_mem_stripLeadingAnd (l : List Char) (x : Char)
    (h : x ∈ stripLeadingAnd l) : x ∈ l :=
  List.IsSuffix.subset (stripLeadingAnd_suffix l) h

/-- `dropWhile` fixes a list whose head fails the predicate. -/
theorem dropWhile_eq_self_of_head? (p : Char → Bool) (l : List Char)
    (h : ∀ c, l.head? = some c → p c = false) : l.dropWhile p = l := by
  cases l with
  | nil => rfl
  | cons a l =>
    have := h a rfl
    simp [List.dropWhile_cons, this]

/-- The head surviving `dropWhile` fails the predicate. -/
theorem head?_dropWhile_false (p : Char → Bool) :
    ∀ (l : List Char) (c : Char), (l.dropWhile p).head? = some c →
      p c = false := by
  intro l
  induction l with
  | nil => intro c hc; simp at hc
  | cons a l ih =>
    intro c hc
    by_cases hp : p a = true
    · rw [List.dropWhile_cons, if_pos hp] at hc
      exact ih c hc
    · rw [Bool.not_eq_true] at hp
      rw [List.dropWhile_cons, hp] at hc
      simp only [Bool.false_eq_true, if_false, List.head?_cons,
        Option.some.injEq] at hc
      rw [← hc]
      exact hp

/-- `rstripDot` is idempotent. -/
theorem rstripDot_rstripDot (l : List Char) :
    rstripDot (rstripDot l) = rstripDot l := by
  unfold rstripDot
  rw [List.reverse_reverse, List.dropWhile_idempotent]

/-- `rstripDot` fixes a list not ending in a period. -/
theorem rstripDot_eq_self (l : List Char)
    (h : ∀ c, l.getLast? = some c → c ≠ '.') : rstripDot l = l := by
  unfold rstripDot
  have hfix : l.reverse.dropWhile (fun c => c = '.') = l.reverse := by
    apply dropWhile_eq_self_of_head?
    intro c hc
    rw [List.head?_reverse] at hc
    simpa using h c hc
  rw [hfix, List.reverse_reverse]

/-- The output of `rstripDot` does not end in a period. -/
theorem getLast?_rstripDot_ne (l : List Char) (c : Char)
    (h : (rstripDot l).getLast? = some c) : c ≠ '.' := by
  unfold rstripDot at h
  rw [List.getLast?_reverse] at h
  have := head?_dropWhile_false _ _ c h
  simpa using this

/-- A list fixed by `rstripDot` does not end in a period. -/
theorem rstripDot_self_getLast (l : List Char) (hfix : rstripDot l = l)
    (c : Char) (h : l.getLast? = some c) : c ≠ '.' := by
  rw [← hfix] at h
  exact getLast?_rstripDot_ne l c h

/-- `rstripDot`-fixedness passes to suffixes. -/
theorem rstripDot_fix_of_suffix (l₂ l₁ : List Char) (hs : l₂ <:+ l₁)
    (hfix : rstripDot l₁ = l₁) : rstripDot l₂ = l₂ := by
  apply rstripDot_eq_self
  intro c hc
  obtain ⟨w, hw⟩ := hs
  apply rstripDot_self_getLast l₁ hfix c
  rw [← hw,
    List.getLast?_append_of_ne_nil w (by intro hnil; rw [hnil] at hc; simp at hc)]
  exact hc

/-- `splitComma` never returns an empty list of pieces. -/
theorem splitComma_ne_nil : ∀ l : List Char, splitComma l ≠ [] := by
  intro l
  induction l with
  | nil => simp [splitComma]
  | cons c rest ih =>
    by_cases hc : c = ','
    · simp [splitComma, hc]
    · cases hs : splitComma rest with
      | nil => exact absurd hs ih
      | cons h t => simp [splitComma, hc, hs]

/-- Pieces of a comma split contain no comma. -/
theorem splitComma_mem_noComma :
    ∀ (l p : List Char), p ∈ splitComma l → ',' ∉ p := by
  intro l
  induction l with
  | nil =>
    intro p hp
    simp [splitComma] at hp
    subst hp
    simp
  | cons c rest ih =>
    intro p hp
    by_cases hc : c = ','
    · subst hc
      simp only [splitComma, if_pos rfl] at hp
      rcases List.mem_cons.mp hp with rfl | hp'
      · simp
      · exact ih p hp'
    · cases hs : splitComma rest with
      | nil => exact absurd hs (splitComma_ne_nil rest)
      | cons h t =>
        have hsp : splitComma (c :: rest) = (c :: h) :: t := by
          simp [splitComma, hc, hs]
        rw [hsp] at hp
        rcases List.mem_cons.mp hp with rfl | hp'
        · intro hmem
          rcases List.mem_cons.mp hmem with heq | hmem'
          · exact hc heq.symm
          · exact ih h (by rw [hs]; exact List.mem_cons_self h t) hmem'
        · exact ih p (by rw [hs]; exact List.mem_cons_of_mem h hp')

/-- A comma-free subject splits into the single piece itself. -/
theorem splitComma_eq_single (l : List Char) (h : ',' ∉ l) :
    splitComma l = [l] := by
  induction l with
  | nil => rfl
  | cons c rest ih =>
    have hc : ¬ c = ',' := fun hh => h (hh ▸ List.mem_cons_self c rest)
    have hrec := ih (fun hm => h (List.mem_cons_of_mem c hm))
    simp [splitComma, hc, hrec]

/-- Characters of a joined list come from the separator or from a name. -/
theorem mem_joinSep :
    ∀ (sep : List Char) (names : List (List Char)) (x : Char),
      x ∈ joinSep sep names → x ∈ sep ∨ ∃ n ∈ names, x ∈ n := by
  intro sep names
  induction names with
  | nil =>
    intro x hx
    simp [joinSep] at hx
  | cons a names ih =>
    intro x hx
    cases names with
    | nil =>
      right
      exact ⟨a, List.mem_cons_self a [], by simpa [joinSep] using hx⟩
    | cons b t =>
      rw [show joinSep sep (a :: b :: t) = a ++ sep ++ joinSep sep (b :: t) from rfl] at hx
      rcases List.mem_append.mp hx with hx1 | hx2
      · rcases List.mem_append.mp hx1 with hxa | hxs
        · right
          exact ⟨a, List.mem_cons_self a (b :: t), hxa⟩
        · left
          exact hxs
      · rcases ih x hx2 with hsep | ⟨n, hn, hxn⟩
        · left
          exact hsep
        · right
          exact ⟨n, List.mem_cons_of_mem a hn, hxn⟩

/-- Join of names none of which ends in a period does not end in a period. -/
theorem joinSep_sepAnd_noDot :
    ∀ names : List (List Char), (∀ n ∈ names, rstripDot n = n) →
      rstripDot (joinSep sepAnd names) = joinSep sepAnd names := by
  intro names
  induction names with
  | nil => intro _; rfl
  | cons a names ih =>
    intro h
    cases names with
    | nil => simpa [joinSep] using h a (List.mem_cons_self a [])
    | cons b t =>
      have hJ := ih (fun x hx => h x (List.mem_cons_of_mem a hx))
      apply rstripDot_eq_self
      intro c hc
      rw [show joinSep sepAnd (a :: b :: t) = a ++ sepAnd ++ joinSep sepAnd (b :: t)
        from rfl] at hc
      by_cases hJn : joinSep sepAnd (b :: t) = []
      · rw [hJn, List.append_nil,
          List.getLast?_append_of_ne_nil a (by decide : sepAnd ≠ [])] at hc
        have : c = ' ' := by
          have : sepAnd.getLast? = some ' ' := by decide
          rw [this] at hc
          exact (Option.some.injEq _ _ ▸ hc.symm)
        simp [this]
      · rw [List.getLast?_append_of_ne_nil _ hJn] at hc
        exact rstripDot_self_getLast _ hJ c hc

/-- Members of the cleaned author list and where they come from. -/
theorem cleanList_mem (pieces : List (List Char)) (n : List Char)
    (h : n ∈ cleanList pieces) :
    ∃ c ∈ pieces, n = stripLeadingAnd (clean1 c) ∧ clean1 c ≠ [] := by
  unfold cleanList at h
  obtain ⟨c, hc, hfc⟩ := List.mem_filterMap.mp h
  by_cases he : (clean1 c).isEmpty = true
  · simp [he] at hfc
  · refine ⟨c, hc, ?_, ?_⟩
    · simp only [he] at hfc
      simp only [Bool.false_eq_true, if_false] at hfc
      exact (Option.some.injEq _ _ ▸ hfc).symm
    · intro hnil
      exact he (by simp [hnil])

/-- The normalized author string contains no comma. -/
theorem normalizeAuthors_noComma (s : List Char) :
    ',' ∉ normalizeAuthors s := by
  intro hmem
  unfold normalizeAuthors at hmem
  rcases mem_joinSep sepAnd _ ',' hmem with hsep | ⟨n, hn, hcomma⟩
  · exact absurd hsep (by decide)
  · obtain ⟨c, hc, hn_eq, _⟩ := cleanList_mem _ n hn
    subst hn_eq
    have h1 : ',' ∈ clean1 c := mem_of_mem_stripLeadingAnd _ _ hcomma
    have h2 : ',' ∈ c := by
      unfold clean1 at h1
      exact mem_of_mem_strip _ _ (mem_of_mem_rstripDot _ _ h1)
    exact splitComma_mem_noComma _ c hc h2

/-- The normalized author string does not end in a period. -/
theorem normalizeAuthors_noDot (s : List Char) :
    rstripDot (normalizeAuthors s) = normalizeAuthors s := by
  unfold normalizeAuthors
  apply joinSep_sepAnd_noDot
  intro n hn
  obtain ⟨c, hc, hn_eq, _⟩ := cleanList_mem _ n hn
  subst hn_eq
  have hfix : rstripDot (clean1 c) = clean1 c := by
    unfold clean1
    exact rstripDot_rstripDot _
  exact rstripDot_fix_of_suffix _ _ (stripLeadingAnd_suffix _) hfix

/-- `rstripWs` only removes characters at the end: a surviving head was the
original head. -/
theorem head?_rstripWs (u : List Char) (c : Char)
    (h : (rstripWs u).head? = some c) : u.head? = some c := by
  have hpre : (rstripWs u) <+: u := by
    unfold rstripWs
    obtain ⟨w, hw⟩ := List.dropWhile_suffix (l := u.reverse) isSpaceC
    refine ⟨w.reverse, ?_⟩
    rw [← List.reverse_append, hw, List.reverse_reverse]
  obtain ⟨t2, ht⟩ := hpre
  rw [← ht, List.head?_append_of_ne_nil]
  · exact h
  · intro hnil
    rw [hnil] at h
    simp at h

/-- `rstripWs` fixes a list not ending in whitespace. -/
theorem rstripWs_eq_self_of_getLast? (l : List Char)
    (h : ∀ c, l.getLast? = some c → isSpaceC c = false) : rstripWs l = l := by
  unfold rstripWs
  have hfix : l.reverse.dropWhile isSpaceC = l.reverse := by
    apply dropWhile_eq_self_of_head?
    intro c hc
    rw [List.head?_reverse] at hc
    exact h c hc
  rw [hfix, List.reverse_reverse]

/-- `strip` is idempotent. -/
theorem strip_strip (l : List Char) : strip (strip l) = strip l := by
  have h1 : lstripWs (strip l) = strip l := by
    apply dropWhile_eq_self_of_head?
    intro c hc
    have hc' : (lstripWs l).head? = some c := head?_rstripWs (lstripWs l) c hc
    exact head?_dropWhile_false isSpaceC l c hc'
  have h2 : rstripWs (strip l) = strip l := by
    apply rstripWs_eq_self_of_getLast?
    intro c hc
    unfold strip rstripWs at hc
    rw [List.getLast?_reverse] at hc
    exact head?_dropWhile_false isSpaceC _ c hc
  have h0 : strip (strip l) = rstripWs (lstripWs (strip l)) := rfl
  rw [h0, h1, h2]

/-- The capture of the braced key group contains no closing brace. -/
theorem braceKey_no_brace (r k t : List Char) (h : braceKey r = some (k, t)) :
    '\x7d' ∉ k := by
  intro hmem
  unfold braceKey at h
  split at h
  · dsimp only at h
    split at h
    · exact Option.noConfusion h
    · split at h
      · simp only [Option.some.injEq, Prod.mk.injEq] at h
        rw [← h.1] at hmem
        have := List.mem_takeWhile_imp hmem
        simp at this
      · exact Option.noConfusion h
  · exact Option.noConfusion h

/-- The raw key capture contains no closing brace. -/
theorem keyAt_no_brace (l k t : List Char) (h : keyAt l = some (k, t)) :
    '\x7d' ∉ k := by
  unfold keyAt at h
  split at h
  · unfold keyTail at h
    split at h
    · dsimp only at h
      split at h
      · exact Option.noConfusion h
      · split at h
        · exact braceKey_no_brace _ k t h
        · exact Option.noConfusion h
    · exact braceKey_no_brace _ k t h
  · exact Option.noConfusion h

/-! ## Claim theorems -/

/-- C2: on the example entry, the extractor yields key `doe2020`, author
`J. Doe and A. Smith`, title `A Study of Things.` (trailing period kept),
journal `Journal of Examples`, year `2020`, and entry type `article`. -/
theorem claim_C2 : extractRecord eC2 = some recC2 := by decide

/-- C1 counterexample: the three-entry document `dC1` is converted to three
records whose keys and author strings are `("", "A")`, `("k", "")` and
`("k", "")`: the first key is empty, the last two keys collide, and the last
two author fields are empty — refuting non-emptiness of keys, uniqueness of
keys, and populatedness of the author field at once. -/
theorem claim_C1_counterexample :
    ((splitBbl dC1).filterMap extractRecord).map (fun r => (r.key, r.authors)) =
      [([], chA), (chK, []), (chK, [])] := by decide

/-- C1 (amended): every emitted record carries an entry-type tag (`article`
or `inproceedings`) and key, author and title fields; the key is the trimmed
braced capture — whitespace-trimmed and free of closing braces — but it may
be empty, keys are not deduplicated across a document, and the author (or
title) value may be empty. -/
theorem claim_C1_amended (e : List Char) (r : BibEntry)
    (h : extractRecord e = some r) :
    (r.entryType = articleTok ∨ r.entryType = inprocTok) ∧
      strip r.key = r.key ∧ '\x7d' ∉ r.key := by
  unfold extractRecord at h
  cases h1 : findKeyCap e with
  | none => rw [h1] at h; exact Option.noConfusion h
  | some kc =>
    rw [h1] at h
    cases h2 : findAuthorCap e with
    | none => rw [h2] at h; exact Option.noConfusion h
    | some ac =>
      rw [h2] at h
      cases h3 : findTitleCap e with
      | none => rw [h3] at h; exact Option.noConfusion h
      | some tc =>
        rw [h3] at h
        simp only [Option.some.injEq] at h
        obtain ⟨i, hi⟩ := searchO_some_exists _ e kc h1
        rw [Option.map_eq_some'] at hi
        obtain ⟨⟨k0, t0⟩, hk0, hfst⟩ := hi
        have hkeq : k0 = kc := hfst
        have hnb : '\x7d' ∉ kc := hkeq ▸ keyAt_no_brace _ _ _ hk0
        refine ⟨?_, ?_, ?_⟩
        · rw [← h]
          by_cases hconf : anyPos inEmphAtB e = true
          · right; simp [hconf]
          · rw [Bool.not_eq_true] at hconf
            left; simp [hconf]
        · rw [← h]
          exact strip_strip kc
        · rw [← h]
          intro hmem
          exact hnb (mem_of_mem_strip kc _ hmem)

/-- C1 witness: the amended statement at the concrete entry `eW1`. -/
theorem claim_C1_witness :
    (recW1.entryType = articleTok ∨ recW1.entryType = inprocTok) ∧
      strip recW1.key = recW1.key ∧ '\x7d' ∉ recW1.key :=
  claim_C1_amended eW1 recW1 (by decide)

/-- C3 counterexample: in `eC3` no emphasis group is preceded by the literal
`In ` (with a trailing space) anywhere — the first group follows a title and
the second follows `In` and a newline — yet the source classifies the entry
`inproceedings` and stores the first group's content under `booktitle`,
where the claim requires `article` with a `journal` field. -/
theorem claim_C3_counterexample :
    anyPos (fun l => inSpaceEmphTok.isPrefixOf l) eC3 = false ∧
      extractRecord eC3 = some recC3 := by decide

/-- C3 (amended): classification searches the whole entry for `In`, a
non-empty whitespace run, then the emphasis opener — not the text directly
before the captured group.  When that test fires anywhere the entry is
`inproceedings` and the first emphasis group's cleaned content is the first
field, under `booktitle`; otherwise the entry is `article` and the content
is the first field, under `journal`. -/
theorem claim_C3_amended (e : List Char) (r : BibEntry) (v : List Char)
    (hr : extractRecord e = some r) (hv : findEmphCap e = some v) :
    (anyPos inEmphAtB e = true ↔ ∃ i, inEmphAtB (e.drop i) = true) ∧
      (anyPos inEmphAtB e = true →
        r.entryType = inprocTok ∧
          r.fields.head? = some (booktitleTok, collapseWs (strip v))) ∧
      (anyPos inEmphAtB e = false →
        r.entryType = articleTok ∧
          r.fields.head? = some (journalTok, collapseWs (strip v))) := by
  unfold extractRecord at hr
  cases h1 : findKeyCap e with
  | none => rw [h1] at hr; exact Option.noConfusion hr
  | some kc =>
    rw [h1] at hr
    cases h2 : findAuthorCap e with
    | none => rw [h2] at hr; exact Option.noConfusion hr
    | some ac =>
      rw [h2] at hr
      cases h3 : findTitleCap e with
      | none => rw [h3] at hr; exact Option.noConfusion hr
      | some tc =>
        rw [h3] at hr
        rw [hv] at hr
        simp only [Option.some.injEq] at hr
        refine ⟨anyPos_true_iff _ e, ?_, ?_⟩
        · intro hconf
          rw [← hr]
          simp [hconf]
        · intro hconf
          rw [← hr]
          simp [hconf]

/-- C3 witness: the amended statement at the concrete conference entry
`eW3`. -/
theorem claim_C3_witness :
    recW3.entryType = inprocTok ∧
      recW3.fields.head? = some (booktitleTok, collapseWs (strip venueW3)) :=
  (claim_C3_amended eW3 recW3 venueW3 (by decide) (by decide)).2.1 (by decide)

/-- C4 counterexample: in `eC4` the source's comma pattern `,\s*(\d{4})\.`
matches `,2011.` (comma directly followed by the digits) before the
claim's comma-space pattern would match `, 2022.`, so the source stores
`2011` where the claim prescribes `2022`. -/
theorem claim_C4_counterexample :
    yearOf eC4 = some year2011 ∧ specYearOf eC4 = some year2022 ∧
      year2011 ≠ year2022 := by decide

/-- C4 (amended): year extraction first searches for a 4-digit run preceded
by a comma and an optional (possibly empty) whitespace run and followed by a
period, storing the first such match; only if that pattern matches nowhere
does it fall back to the first word-boundary-preceded 4-digit run followed
by a period; when neither pattern matches anywhere there is no year. -/
theorem claim_C4_amended (s : List Char) :
    (∀ (i : Nat) (y : List Char), tryCommaYearAt (s.drop i) = some y →
        (∀ j, j < i → tryCommaYearAt (s.drop j) = none) → yearOf s = some y) ∧
      (anyPos commaYearHitB s = false →
        ∀ (i : Nat) (y : List Char), capAtP none s i = some y →
          (∀ j, j < i → capAtP none s j = none) → yearOf s = some y) ∧
      (yearOf s = none ↔
        (∀ i, tryCommaYearAt (s.drop i) = none) ∧
          ∀ i, capAtP none s i = none) := by
  refine ⟨?_, ?_, ?_⟩
  · intro i y hy hmin
    unfold yearOf
    rw [searchO_some_min tryCommaYearAt s i y hy hmin]
  · intro hnone i y hy hmin
    unfold yearOf
    have hcomma : searchO tryCommaYearAt s = none := by
      rw [searchO_none_iff]
      intro i'
      have hbit := (anyPos_false_iff commaYearHitB s).mp hnone i'
      unfold commaYearHitB at hbit
      cases htc : tryCommaYearAt (s.drop i') with
      | none => rfl
      | some z => rw [htc] at hbit; simp at hbit
    rw [hcomma]
    exact firstBareAux_min s none i y hy hmin
  · unfold yearOf
    constructor
    · intro h
      cases hcomma : searchO tryCommaYearAt s with
      | some y => rw [hcomma] at h; exact Option.noConfusion h
      | none =>
        rw [hcomma] at h
        exact ⟨(searchO_none_iff _ s).mp hcomma,
          (firstBareAux_none_iff s none).mp h⟩
    · rintro ⟨hc, hb⟩
      rw [(searchO_none_iff _ s).mpr hc]
      exact (firstBareAux_none_iff s none).mpr hb

/-- C4 witness: the amended statement's first branch at the concrete subject
`sW4`, position 1. -/
theorem claim_C4_witness : yearOf sW4 = some year2020 :=
  (claim_C4_amended sW4).1 1 year2020 (by decide) (by decide)

/-- C5 counterexample: `and and Smith` normalizes to `and Smith`, a string in
the range of normalization, and renormalizing it yields `Smith` — so
normalization is not idempotent on its range. -/
theorem claim_C5_counterexample :
    normalizeAuthors sAndAndSmith = sAndSmith ∧
      normalizeAuthors sAndSmith = sSmith ∧ sAndSmith ≠ sSmith := by decide

/-- C5 (amended): normalization is idempotent on every output that is fixed
by whitespace stripping, by whitespace collapsing and by the
leading-conjunction removal (outputs violating these arise only from
degenerate candidates such as doubled conjunctions or names emptied or left
whitespace-terminated by the cleanup); comma-freeness and the absence of a
trailing period hold for every output and are proved, not assumed. -/
theorem claim_C5_amended (s : List Char)
    (h1 : strip (normalizeAuthors s) = normalizeAuthors s)
    (h2 : collapseWs (normalizeAuthors s) = normalizeAuthors s)
    (h3 : stripLeadingAnd (normalizeAuthors s) = normalizeAuthors s) :
    normalizeAuthors (normalizeAuthors s) = normalizeAuthors s := by
  have hnd := normalizeAuthors_noDot s
  have hnc := normalizeAuthors_noComma s
  rw [show normalizeAuthors (normalizeAuthors s) =
      joinSep sepAnd (cleanList (splitComma
        (rstripDot (collapseWs (strip (normalizeAuthors s)))))) from rfl]
  rw [h1, h2, hnd, splitComma_eq_single _ hnc]
  by_cases hout : normalizeAuthors s = []
  · rw [hout]
    decide
  · have hne : ¬ ((clean1 (normalizeAuthors s)).isEmpty = true) := by
      intro hemp
      apply hout
      have : clean1 (normalizeAuthors s) = [] := by simpa using hemp
      unfold clean1 at this
      rw [h1, hnd] at this
      exact this
    have hclean : cleanList [normalizeAuthors s] =
        [stripLeadingAnd (clean1 (normalizeAuthors s))] := by
      unfold cleanList
      simp only [List.filterMap_cons, List.filterMap_nil]
      rw [if_neg hne]
    rw [hclean]
    unfold clean1
    rw [h1, hnd, h3]
    rfl

/-- C5 witness: the amended statement at the concrete span `sW5`. -/
theorem claim_C5_witness :
    normalizeAuthors (normalizeAuthors sW5) = normalizeAuthors sW5 :=
  claim_C5_amended sW5 (by decide) (by decide) (by decide)

/-- C6 counterexample: a document starting with a newline directly followed
by the marker splits into an empty first chunk (followed by the marker
chunk), refuting that no chunk is empty. -/
theorem claim_C6_counterexample :
    splitBbl dC6 = [[], bibitemTok] ∧ [] ∈ splitBbl dC6 := by decide

/-- C6 (amended): every chunk other than the first starts with the marker
and in particular is non-empty; only the first chunk can be the empty
string (exactly when the document is empty or starts with a newline
followed by the marker). -/
theorem claim_C6_amended (cs y : List Char) (h : y ∈ (splitBbl cs).tail) :
    bibitemTok.isPrefixOf y = true ∧ y ≠ [] := by
  have hp := splitBbl_tail_tok cs y h
  refine ⟨hp, ?_⟩
  intro hnil
  rw [hnil] at hp
  exact absurd hp (by decide)

/-- C6 witness: the amended statement at the concrete document `dW6`. -/
theorem claim_C6_witness :
    bibitemTok.isPrefixOf chunkW6 = true ∧ chunkW6 ≠ [] :=
  claim_C6_amended dW6 chunkW6 (by decide)

/-- C7 counterexample: for `N = 0` the claim fails — the empty document (the
concatenation of zero entries) splits into one empty chunk, not zero
chunks. -/
theorem claim_C7_counterexample :
    splitBbl (joinSep nlTok ([] : List (List Char))) = [[]] ∧
      (splitBbl (joinSep nlTok ([] : List (List Char)))).length ≠ 0 := by
  decide

/-- C7 (amended): for every `N ≥ 1`, splitting the newline-joined
concatenation of `N` well-formed entries (each opened by the marker and
containing no internal line-start marker) yields exactly those `N` chunks in
order; for `N = 0` the splitter yields one empty chunk instead.  A chunk
containing no marker at all fails extraction and is hence dropped. -/
theorem claim_C7_amended :
    (∀ es : List (List Char), es ≠ [] →
        (∀ e ∈ es, bibitemTok.isPrefixOf e = true ∧ anyPos trigAtB e = false) →
        splitBbl (joinSep nlTok es) = es) ∧
      ∀ p : List Char, anyPos bibitemHitB p = false →
        convert_bibitem_to_bibtex p = none := by
  constructor
  · exact splitBbl_joinSep
  · intro p hp
    have hkey : findKeyCap p = none := by
      unfold findKeyCap
      rw [searchO_none_iff]
      intro i
      have hpi := (anyPos_false_iff bibitemHitB p).mp hp i
      unfold bibitemHitB at hpi
      simp [keyAt, hpi]
    unfold convert_bibitem_to_bibtex
    rw [(extractRecord_none_iff p).mpr (Or.inl hkey)]
    rfl

/-- C7 witness: the amended statement at two concrete entries and a concrete
marker-free preamble. -/
theorem claim_C7_witness :
    splitBbl (joinSep nlTok [eW7a, eW7b]) = [eW7a, eW7b] ∧
      convert_bibitem_to_bibtex pW7 = none :=
  ⟨claim_C7_amended.1 [eW7a, eW7b] (by decide) (by decide),
    claim_C7_amended.2 pW7 (by decide)⟩

/-- C8: per-entry processing is total with an optional result — conversion
returns `none` exactly when the key, author-span or title pattern fails —
and the collection loop distributes over concatenation, so one entry's
failure never aborts the processing of the entries around it. -/
theorem claim_C8 :
    (∀ e : List Char, convert_bibitem_to_bibtex e = none ↔
        (findKeyCap e = none ∨ findAuthorCap e = none ∨
          findTitleCap e = none)) ∧
      ∀ pre post : List (List Char),
        collectRecords (pre ++ post) =
          collectRecords pre ++ collectRecords post := by
  constructor
  · intro e
    unfold convert_bibitem_to_bibtex
    rw [Option.map_eq_none', extractRecord_none_iff]
  · intro pre post
    rw [collectRecords_eq_filterMap, collectRecords_eq_filterMap,
      collectRecords_eq_filterMap, List.filterMap_append]

/-- C9: the output is exactly the successful conversions of the chunks, in
document order, joined by the blank-line separator `\n\n`. -/
theorem claim_C9 (cs : List Char) :
    process_all_bibitems cs =
      joinSep blankSep ((splitBbl cs).filterMap convert_bibitem_to_bibtex) := by
  unfold process_all_bibitems
  rw [collectRecords_eq_filterMap]

/-- C10 counterexample: with the author span `J. Doe, and ., A.`, the
candidate ` and .` trims to `and ` — non-empty, so it is not dropped — and
the leading-conjunction removal then empties it; the emitted author field is
`J. Doe and  and A`, which contains an empty name between adjacent
separators. -/
theorem claim_C10_counterexample :
    (extractRecord eC10).map (fun r => r.authors) = some authorsC10 ∧
      [] ∈ cleanList [pieceDoe, pieceAndDot, pieceA] := by decide

/-- C10 (amended): candidates empty after trimming are dropped before the
conjunction removal, so an empty name can enter the author list only when a
non-empty trimmed candidate is reduced to empty by the leading-conjunction
removal; if no candidate is so reduced, the emitted list contains no empty
name. -/
theorem claim_C10_amended (pieces : List (List Char))
    (h : ∀ c ∈ pieces, clean1 c = [] ∨ stripLeadingAnd (clean1 c) ≠ []) :
    [] ∉ cleanList pieces := by
  intro hmem
  obtain ⟨c, hc, heq, hne⟩ := cleanList_mem pieces [] hmem
  rcases h c hc with hd | hd
  · exact hne hd
  · exact hd heq.symm

/-- C10 witness: the amended statement at the concrete candidate list
containing only `J. Doe`. -/
theorem claim_C10_witness : [] ∉ cleanList [pieceDoe] :=
  claim_C10_amended [pieceDoe] (by decide)
